import Mathlib

/-!
# A verification development for fissile's release-loading and versioning engine

This file gives a shallow embedding, in Lean 4, of the role-manifest loading and
content-addressable versioning code of the `fissile` repository
(`model/roles.go`, `model/release.go`), together with theorems settling the
claims of the accompanying specification.

Conventions of the embedding:
* Go strings are Lean `String`s; Go `[]byte` values are `List Nat` with each
  element a byte; `[]byte(s)` is UTF-8 encoding (`strBytes`).
* Go maps are association lists (`List (String × α)`) with `setA` modelling map
  assignment (overwrite on an existing key, append otherwise) and `getA`
  modelling lookup.  Go's map iteration order is nondeterministic; whenever the
  code iterates a map it either sorts the results afterwards or builds another
  map, so the association-list order is a sound representative.
* Fallible Go functions returning `(T, error)` become `Except String T`.
* The file system is an explicit parameter `FS := String → Option (List Nat)`
  mapping a path to the bytes of the file there (`none` = the open fails).
* `crypto/sha1` is implemented for real (`sha1`, below) so that every digest
  the model produces is the digest the Go code produces; a Go `hash.Hash` that
  receives several `Write`s and then `Sum(nil)` is modelled as the SHA-1 of the
  concatenation of everything written.
* Machine words are `Nat` with explicit reduction mod 2^32.
* All recursion is structural (fuel-driven where the Go loop is not), so every
  definition evaluates inside the kernel.
-/

set_option maxRecDepth 100000

namespace Fissile

/-! ## Bytes, hex, UTF-8 and SHA-1 (crypto/sha1, encoding/hex) -/

/-- Truncate to a 32-bit word. -/
def w32 (n : Nat) : Nat := n % 4294967296

/-- Rotate a 32-bit word left by `s` bits (`x` is assumed < 2^32). -/
def rotl (s x : Nat) : Nat := ((x <<< s) ||| (x >>> (32 - s))) % 4294967296

/-- Big-endian byte encoding of `n` in `k` bytes. -/
def beBytes (k n : Nat) : List Nat := (List.range k).reverse.map (fun i => (n >>> (8*i)) &&& 255)

/-- SHA-1 padding: append 0x80, zero bytes up to 56 mod 64, then the 64-bit
big-endian bit length. -/
def sha1pad (msg : List Nat) : List Nat :=
  msg ++ 128 :: List.replicate ((119 - (msg.length % 64)) % 64) 0 ++ beBytes 8 (msg.length * 8)

/-- Group bytes into big-endian 32-bit words. -/
def bytesToWords : List Nat → List Nat
  | b0 :: b1 :: b2 :: b3 :: rest =>
    ((((b0 <<< 8) ||| b1) <<< 16) ||| ((b2 <<< 8) ||| b3)) :: bytesToWords rest
  | _ => []

/-- Extend the 16 message words (held in reverse, newest first) by `n` further
schedule words. -/
def sha1extend : List Nat → Nat → List Nat
  | ws, 0 => ws
  | ws, n+1 =>
    sha1extend (rotl 1 (ws.getD 2 0 ^^^ ws.getD 7 0 ^^^ ws.getD 13 0 ^^^ ws.getD 15 0) :: ws) n

/-- The SHA-1 round function. -/
def sha1f (t b c d : Nat) : Nat :=
  if t < 20 then (b &&& c) ||| ((b ^^^ 4294967295) &&& d)
  else if t < 40 then b ^^^ c ^^^ d
  else if t < 60 then (b &&& c) ||| (b &&& d) ||| (c &&& d)
  else b ^^^ c ^^^ d

/-- The SHA-1 round constants. -/
def sha1k (t : Nat) : Nat :=
  if t < 20 then 1518500249
  else if t < 40 then 1859775393
  else if t < 60 then 2400959708
  else 3395469782

/-- Process one 64-byte chunk. -/
def sha1chunk (h : Nat × Nat × Nat × Nat × Nat) (chunk : List Nat) : Nat × Nat × Nat × Nat × Nat :=
  let ⟨h0, h1, h2, h3, h4⟩ := h
  let ws := (sha1extend (bytesToWords chunk).reverse 64).reverse
  let st := ws.enum.foldl
    (fun (st : Nat × Nat × Nat × Nat × Nat) (tw : Nat × Nat) =>
      let ⟨a, b, c, d, e⟩ := st
      let temp := w32 (rotl 5 a + sha1f tw.1 b c d + e + sha1k tw.1 + tw.2)
      (temp, a, rotl 30 b, c, d))
    (h0, h1, h2, h3, h4)
  (w32 (h0 + st.1), w32 (h1 + st.2.1), w32 (h2 + st.2.2.1), w32 (h3 + st.2.2.2.1),
   w32 (h4 + st.2.2.2.2))

/-- Chunk loop; the fuel bounds the number of 64-byte chunks and is always
supplied ≥ the actual count, so the `0` case is never reached on padded input. -/
def sha1chunksF : Nat → Nat × Nat × Nat × Nat × Nat → List Nat → Nat × Nat × Nat × Nat × Nat
  | 0, h, _ => h
  | _, h, [] => h
  | f+1, h, bytes => sha1chunksF f (sha1chunk h (bytes.take 64)) (bytes.drop 64)

/-- SHA-1 digest of a byte sequence, as its 20 digest bytes. -/
def sha1 (msg : List Nat) : List Nat :=
  let padded := sha1pad msg
  let ⟨h0, h1, h2, h3, h4⟩ :=
    sha1chunksF padded.length (1732584193, 4023233417, 2562383102, 271733878, 3285377520) padded
  beBytes 4 h0 ++ beBytes 4 h1 ++ beBytes 4 h2 ++ beBytes 4 h3 ++ beBytes 4 h4

/-- Lower-case hex digit. -/
def hexDigit (n : Nat) : Char := if n < 10 then Char.ofNat (48 + n) else Char.ofNat (87 + n)

/-- Lower-case hex encoding of bytes, as Go's `hex.EncodeToString`. -/
def hexEncode (bs : List Nat) : String :=
  String.mk (bs.flatMap (fun b => [hexDigit (b >>> 4), hexDigit (b &&& 15)]))

/-- UTF-8 encoding of one character. -/
def utf8Char (c : Char) : List Nat :=
  let n := c.toNat
  if n < 128 then [n]
  else if n < 2048 then [192 ||| (n >>> 6), 128 ||| (n &&& 63)]
  else if n < 65536 then [224 ||| (n >>> 12), 128 ||| ((n >>> 6) &&& 63), 128 ||| (n &&& 63)]
  else [240 ||| (n >>> 18), 128 ||| ((n >>> 12) &&& 63), 128 ||| ((n >>> 6) &&& 63),
        128 ||| (n &&& 63)]

/-- The UTF-8 bytes of a string, as Go's `[]byte(s)`. -/
def strBytes (s : String) : List Nat := s.data.flatMap utf8Char

/-- Hex-encoded SHA-1 of a byte sequence. -/
def sha1hex (msg : List Nat) : String := hexEncode (sha1 msg)

/-! ## String ordering

Go compares strings byte-lexicographically over their UTF-8 encoding
(`strings.Compare`, `sort.Strings`); comparing the code points
lexicographically yields the same order, since UTF-8 preserves code-point
order.  We use an executable comparison on code points. -/

/-- Lexicographic `≤` on character lists, comparing code points. -/
def charListLe : List Char → List Char → Bool
  | [], _ => true
  | _ :: _, [] => false
  | a :: as, b :: bs =>
    if a.toNat < b.toNat then true
    else if a.toNat = b.toNat then charListLe as bs
    else false

/-- The string order used wherever the Go code sorts strings. -/
def strLe (a b : String) : Prop := charListLe a.data b.data = true

instance : DecidableRel strLe := fun a b =>
  inferInstanceAs (Decidable (charListLe a.data b.data = true))

/-! ## The data model (model/roles.go, model/release.go)

`Job` and `Package` live in source files whose bodies are not among the given
sources (`jobs.go`, `packages.go`); only the fields the given sources use are
modelled: a `Package` has a `Name` (its identity per the spec) and a `SHA1`;
a `Job` has a `Name`, its stored `SHA1` checksum, and its resolved `Packages`. -/

structure Package where
  Name : String
  SHA1 : String
deriving DecidableEq

structure Job where
  Name : String
  SHA1 : String
  Packages : List Package
deriving DecidableEq

/-- A `roles:` entry's job reference (`type roleJob`). -/
structure roleJob where
  Name : String
  ReleaseName : String
deriving DecidableEq

/-- `type configuration struct { Templates map[string]string }`; the map may be
nil (`none`) or present (`some` association list). -/
structure configuration where
  Templates : Option (List (String × String))
deriving DecidableEq

/-- `type Role struct`.  The Go field `Type` is called `Type'` here (`Type` is
a Lean keyword); `rolesManifestPath` embeds the `rolesManifest` back-pointer,
of which the code only ever reads `manifestFilePath` (in `GetScriptPaths`). -/
structure Role where
  Name : String
  Jobs : List Job
  EnvironScripts : List String
  Scripts : List String
  PostConfigScripts : List String
  Type' : String
  JobNameList : List roleJob
  Configuration : Option configuration
  rolesManifestPath : String
deriving DecidableEq

/-- `type RoleManifest struct`. -/
structure RoleManifest where
  Roles : List Role
  Configuration : Option configuration
  manifestFilePath : String
deriving DecidableEq

/-- `type Release struct`, restricted to the fields role-manifest loading
reads: its `Name` and its `Jobs`. -/
structure Release where
  Name : String
  Jobs : List Job
deriving DecidableEq

/-- The file system: bytes of the file at a path, or `none` if opening fails. -/
def FS : Type := String → Option (List Nat)

instance {ε α : Type} [DecidableEq ε] [DecidableEq α] : DecidableEq (Except ε α) := fun a b =>
  match a, b with
  | .ok x, .ok y => if h : x = y then isTrue (by rw [h]) else isFalse (by simp [h])
  | .error e, .error e2 => if h : e = e2 then isTrue (by rw [h]) else isFalse (by simp [h])
  | .ok _, .error _ => isFalse (by simp)
  | .error _, .ok _ => isFalse (by simp)

/-- `Roles.Less` compares role names with `strings.Compare(...) < 0`; the sort
it induces is modelled with the reflexive closure, `≤` on names. -/
def roleLe (a b : Role) : Prop := strLe a.Name b.Name

instance : DecidableRel roleLe := fun a b => inferInstanceAs (Decidable (strLe a.Name b.Name))

/-- Modelled from the spec: `Packages.Less` lives in `packages.go`, which is
not among the given sources.  The spec says packages are "sorted by package
identity" and that a `Package`'s identity is its `Name`, so the order compares
names. -/
def pkgLe (a b : Package) : Prop := strLe a.Name b.Name

instance : DecidableRel pkgLe := fun a b => inferInstanceAs (Decidable (strLe a.Name b.Name))

/-! ## Association lists as Go maps -/

/-- Go map assignment `m[k] = v`: overwrite an existing key, else append. -/
def setA {α : Type} : List (String × α) → String → α → List (String × α)
  | [], k, v => [(k, v)]
  | (k0, v0) :: rest, k, v =>
    if k0 = k then (k0, v) :: rest else (k0, v0) :: setA rest k v

/-- Go map lookup `m[k]`. -/
def getA {α : Type} : List (String × α) → String → Option α
  | [], _ => none
  | (k0, v0) :: rest, k => if k0 = k then some v0 else getA rest k

/-! ## path/filepath (Unix rules): Clean, Join, Dir, Base, IsAbs -/

/-- `filepath.IsAbs` on Unix: the path starts with a slash. -/
def isAbs (p : String) : Bool :=
  match p.data with
  | '/' :: _ => true
  | _ => false

/-- The backtracking step of `filepath.Clean`'s ".." case: having just removed
`last` from the output (held in reverse), keep removing while the output is
longer than `dotdot` and the removed character is not a separator. -/
def cleanBacktrack : List Char → Char → Nat → List Char
  | [], _, _ => []
  | c :: o2, last, dd =>
    if dd < (c :: o2).length ∧ last ≠ '/' then cleanBacktrack o2 c dd else c :: o2

/-- The main loop of `filepath.Clean` (Unix).  `o` is the output buffer in
reverse; `dd` is Go's `dotdot` mark; `ro` says whether the path is rooted.
The fuel bounds the number of iterations (each consumes at least one input
character), so the `0` case is never reached with the fuel `clean` supplies. -/
def cleanLoop : Nat → List Char → List Char → Nat → Bool → List Char
  | 0, _, o, _, _ => o
  | _+1, [], o, _, _ => o
  | f+1, c :: rest, o, dd, ro =>
    if c = '/' then cleanLoop f rest o dd ro
    else if c = '.' ∧ (rest = [] ∨ rest.head? = some '/') then cleanLoop f rest o dd ro
    else if c = '.' ∧ rest.head? = some '.' ∧ (rest.tail = [] ∨ rest.tail.head? = some '/') then
      if dd < o.length then
        let o2 := match o with
          | [] => []
          | x :: xs => cleanBacktrack xs x dd
        cleanLoop f rest.tail o2 dd ro
      else if ¬ro then
        let o2 := '.' :: '.' :: (if 0 < o.length then '/' :: o else o)
        cleanLoop f rest.tail o2 o2.length ro
      else cleanLoop f rest.tail o dd ro
    else
      let seg := (c :: rest).takeWhile (fun x => x ≠ '/')
      let rest2 := (c :: rest).dropWhile (fun x => x ≠ '/')
      let o2 := if (ro ∧ o.length ≠ 1) ∨ (¬ro ∧ o.length ≠ 0) then '/' :: o else o
      cleanLoop f rest2 (seg.reverse ++ o2) dd ro

/-- `filepath.Clean` on Unix. -/
def clean (p : String) : String :=
  if p = "" then "." else
  let cs := p.data
  let ro := isAbs p
  let rem := if ro then cs.tail else cs
  let o0 : List Char := if ro then ['/'] else []
  let dd0 : Nat := if ro then 1 else 0
  let o := cleanLoop (rem.length + 1) rem o0 dd0 ro
  if o.length = 0 then "." else String.mk o.reverse

/-- `filepath.Dir` on Unix: everything up to and including the final slash,
cleaned (no slash at all yields "."). -/
def dirPath (p : String) : String :=
  clean (String.mk ((p.data.reverse.dropWhile (fun x => x ≠ '/')).reverse))

/-- `filepath.Join` of two elements on Unix. -/
def joinPath (a b : String) : String :=
  if a ≠ "" then clean (a ++ "/" ++ b)
  else if b ≠ "" then clean b
  else ""

/-- `filepath.Base` on Unix. -/
def basename (p : String) : String :=
  if p = "" then "." else
  let r := p.data.reverse.dropWhile (fun x => x = '/')
  match r with
  | [] => "/"
  | _ => String.mk ((r.takeWhile (fun x => x ≠ '/')).reverse)

/-- `strings.Contains` on character lists. -/
def containsL : List Char → List Char → Bool
  | [], pat => pat.isEmpty
  | c :: t, pat => pat.isPrefixOf (c :: t) || containsL t pat

/-- `strings.Contains s sub`. -/
def strContains (s sub : String) : Bool := containsL s.data sub.data

/-- `strings.ToLower` (ASCII; the names this code lower-cases are ASCII). -/
def toLowerStr (s : String) : String := String.mk (s.data.map Char.toLower)

/-! ## release.go: LookupJob, license filtering, the `!binary` normalizer -/

/-- `Release.LookupJob`: linear scan for the first job with the given name. -/
def LookupJob (r : Release) (jobName : String) : Except String Job :=
  match r.Jobs.find? (fun j => j.Name == jobName) with
  | some j => .ok j
  | none => .error ("Cannot find job " ++ jobName ++ " in release")

/-- The filter of `loadLicense`'s tar callback: keep entries whose lower-cased
name contains "license" or "notice". -/
def keepLicense (name : String) : Bool :=
  strContains (toLowerStr name) "license" || strContains (toLowerStr name) "notice"

/-- `loadLicense`'s construction of `License.Files` from the archive's entries
(each a name/content pair, in archive order): matching entries are stored into
the map keyed by the base filename of the entry. -/
def loadLicenseFiles (entries : List (String × List Nat)) : List (String × List Nat) :=
  entries.foldl
    (fun files e => if keepLicense e.1 then setA files (basename e.1) e.2 else files) []

/-- The tag matched by `yamlBinaryRegexp`, `"!binary |-\n"`, as characters. -/
def yamlTag : List Char := "!binary |-\n".data

/-- The replacement `"!!binary |-\n"`, as characters. -/
def yamlTagFixed : List Char := "!!binary |-\n".data

/-- The loop of `yamlBinaryRegexp.ReplaceAll(manifest, "$1!!binary |-\n")` for
the pattern `([^!])!binary \|-\n`: scan left to right; at each position a match
requires one character other than `!` followed by the tag, and the replacement
re-emits that character followed by the doubled tag; scanning resumes after the
matched region (matches are leftmost and non-overlapping, as in Go's regexp).
The fuel bounds the number of steps (each consumes at least one character). -/
def fixYamlBinaryF : Nat → List Char → List Char
  | 0, s => s
  | _+1, [] => []
  | f+1, c :: rest =>
    if c ≠ '!' ∧ yamlTag.isPrefixOf rest then
      c :: yamlTagFixed ++ fixYamlBinaryF f (rest.drop yamlTag.length)
    else c :: fixYamlBinaryF f rest

/-- The `!binary` → `!!binary` manifest normalizer of `loadMetadata`. -/
def fixYamlBinary (s : List Char) : List Char := fixYamlBinaryF s.length s

/-! ## roles.go: signatures and versions -/

/-- `Role.GetScriptPaths`: map every non-absolute script path (environment,
startup, post-config scripts, in that order) to its location relative to the
role manifest's directory. -/
def GetScriptPaths (r : Role) : List (String × String) :=
  [r.EnvironScripts, r.Scripts, r.PostConfigScripts].foldl
    (fun result scriptList =>
      scriptList.foldl
        (fun result script =>
          if isAbs script then result
          else setA result script (joinPath (dirPath r.rolesManifestPath) script))
        result)
    []

/-- The hashing loop of `GetScriptSignatures`: for each file name in order,
write the name and then the file's contents into the running hash (modelled as
the accumulated byte list); a failing open aborts. -/
def hashScriptFiles (fs : FS) : List String → List Nat → Except String (List Nat)
  | [], acc => .ok acc
  | f :: rest, acc =>
    match fs f with
    | none => .error ("open " ++ f ++ ": no such file or directory")
    | some content => hashScriptFiles fs rest (acc ++ strBytes f ++ content)

/-- `Role.GetScriptSignatures`: the SHA-1 over the sorted script paths, each
followed by its file contents. -/
def GetScriptSignatures (fs : FS) (r : Role) : Except String String :=
  let scripts := List.insertionSort strLe ((GetScriptPaths r).map (fun kv => kv.2))
  (hashScriptFiles fs scripts []).map (fun bytes => hexEncode (sha1 bytes))

/-- The template map the role carries (`r.Configuration.Templates`); the Go
code only reads it under a non-nil guard. -/
def templatesOf (r : Role) : List (String × String) :=
  match r.Configuration with
  | some c => c.Templates.getD []
  | none => []

/-- `Role.GetTemplateSignatures`: render every template entry as
`"<key>: <value>"`, sort, and hash.  (The Go version's error return is always
nil.) -/
def GetTemplateSignatures (r : Role) : String :=
  let templates := (templatesOf r).map (fun kv => kv.1 ++ ": " ++ kv.2)
  hexEncode (sha1 ((List.insertionSort strLe templates).flatMap strBytes))

/-- Lines 233–246 of `GetRoleDevVersion`: the job/package portion of the
role's signature string.  The single loop appends `"\n" ++ job.SHA1` to the
signature and the job's packages to the accumulator; the accumulated packages
are then sorted and each contributes `"\n" ++ pkg.SHA1`. -/
def rolePkgSignature (r : Role) : String :=
  let sp := r.Jobs.foldl
    (fun (sp : String × List Package) job => (sp.1 ++ "\n" ++ job.SHA1, sp.2 ++ job.Packages))
    ("", [])
  (List.insertionSort pkgLe sp.2).foldl (fun s p => s ++ "\n" ++ p.SHA1) sp.1

/-- Whether `GetRoleDevVersion`'s template guard
`r.Configuration != nil && r.Configuration.Templates != nil` holds. -/
def templatesPresent (r : Role) : Bool :=
  match r.Configuration with
  | some c => c.Templates.isSome
  | none => false

/-- The full pre-hash signature string of `GetRoleDevVersion`: job and package
checksums, then the script signature, then — under the non-nil template
guard — the template signature. -/
def roleSignature (fs : FS) (r : Role) : Except String String := do
  let sig ← GetScriptSignatures fs r
  let s := rolePkgSignature r ++ "\n" ++ sig
  let s :=
    match r.Configuration with
    | some c =>
      match c.Templates with
      | some _ => s ++ "\n" ++ GetTemplateSignatures r
      | none => s
    | none => s
  pure s

/-- `Role.GetRoleDevVersion`: the hex SHA-1 of the signature string. -/
def GetRoleDevVersion (fs : FS) (r : Role) : Except String String :=
  (roleSignature fs r).map (fun s => hexEncode (sha1 (strBytes s)))

/-- The loop of `GetRoleManifestDevPackageVersion`: feed each role's dev
version into the running hash (the accumulated byte list); an error aborts
with it. -/
def hashRoleVersions (fs : FS) : List Role → List Nat → Except String (List Nat)
  | [], acc => .ok acc
  | role :: rest, acc => do
    let v ← GetRoleDevVersion fs role
    hashRoleVersions fs rest (acc ++ strBytes v)

/-- `RoleManifest.GetRoleManifestDevPackageVersion`: sort a copy of the roles
by name, seed the hash with `extra`, feed every role's dev version, hex the
digest. -/
def GetRoleManifestDevPackageVersion (fs : FS) (m : RoleManifest) (extra : String) :
    Except String String :=
  let roles := List.insertionSort roleLe m.Roles
  (hashRoleVersions fs roles (strBytes extra)).map (fun bytes => hexEncode (sha1 bytes))

/-! ## roles.go: LoadRoleManifest -/

/-- The release-mapping loop of `LoadRoleManifest`: build the name → release
table, failing on the first name already present. -/
def buildMapped : List Release → List (String × Release) → Except String (List (String × Release))
  | [], m => .ok m
  | rel :: rest, m =>
    match getA m rel.Name with
    | some _ => .error ("Error - release " ++ rel.Name ++ " has been loaded more than once")
    | none => buildMapped rest (setA m rel.Name rel)

/-- The removal condition of the role-filtering loop: a role is spliced out
when its type is present and is neither "bosh-task" nor "bosh". -/
def removeCond (r : Role) : Bool :=
  r.Type' != "" && r.Type' != "bosh-task" && r.Type' != "bosh"

/-- Splice index `i` out of the list (`roles = append(roles[:i], roles[i+1:]...)`). -/
def removeAt (roles : List Role) (i : Nat) : List Role := roles.take i ++ roles.drop (i+1)

/-- The backward role-filtering loop of `LoadRoleManifest`
(`for i := len(roles) - 1; i >= 0; i--`): `sweepRoles roles (i+1)` performs the
iterations for indices `i, i-1, …, 0`. -/
def sweepRoles : List Role → Nat → List Role
  | roles, 0 => roles
  | roles, i+1 =>
    let roles2 :=
      match roles[i]? with
      | some role => if removeCond role then removeAt roles i else roles
      | none => roles
    sweepRoles roles2 i

/-- `Role.calculateRoleConfigurationTemplates`: default the role's
configuration, then overlay the role's own templates over the global ones
(role wins on conflict). -/
def calcTemplates (globalT : List (String × String)) (r : Role) : Role :=
  let roleT := templatesOf r
  let merged := roleT.foldl (fun m kv => setA m kv.1 kv.2)
    (globalT.foldl (fun m kv => setA m kv.1 kv.2) [])
  { r with Configuration := some ⟨some merged⟩ }

/-- The job-reference resolution loop of `LoadRoleManifest` (lines 117–131):
each reference's release must be in the table, and the job must exist in that
release. -/
def resolveJobRefs (mapped : List (String × Release)) (roleName : String) :
    List roleJob → Except String (List Job)
  | [] => .ok []
  | ref :: rest =>
    match getA mapped ref.ReleaseName with
    | none => .error ("Error - release " ++ ref.ReleaseName ++
        " has not been loaded and is referenced by job " ++ ref.Name ++
        " in role " ++ roleName)
    | some release => do
      let job ← LookupJob release ref.Name
      let jobs ← resolveJobRefs mapped roleName rest
      pure (job :: jobs)

/-- Per-role work of `LoadRoleManifest`'s final loop: set the back reference,
resolve the job list, merge the configuration templates. -/
def resolveRole (mapped : List (String × Release)) (globalT : List (String × String))
    (path : String) (r : Role) : Except String Role := do
  let jobs ← resolveJobRefs mapped r.Name r.JobNameList
  pure (calcTemplates globalT { r with rolesManifestPath := path, Jobs := jobs })

/-- `mapM` for `Except`, written out so its unfolding is under our control. -/
def mapE {α β : Type} (f : α → Except String β) : List α → Except String (List β)
  | [] => .ok []
  | a :: as => do
    let b ← f a
    let bs ← mapE f as
    pure (b :: bs)

/-- The global template map after the nil-fixing steps on the parsed manifest
(`rolesManifest.Configuration` and its `Templates` are defaulted when nil). -/
def globalTemplatesOf (parsed : RoleManifest) : List (String × String) :=
  match parsed.Configuration with
  | some c => c.Templates.getD []
  | none => []

/-- `LoadRoleManifest`.  Reading the manifest file and `yaml.Unmarshal` are
modelled by taking the already-parsed manifest as input (their failure modes
return the I/O or parse error and are outside this model); everything from the
duplicate-release check on follows the source: build the release table
(failing on a duplicate name, before the parsed manifest is consulted), splice
out roles of foreign types from the back, default the manifest configuration,
then resolve and configure each surviving role. -/
def LoadRoleManifest (manifestFilePath : String) (parsed : RoleManifest)
    (releases : List Release) : Except String RoleManifest := do
  let mapped ← buildMapped releases []
  let roles0 := sweepRoles parsed.Roles parsed.Roles.length
  let globalT := globalTemplatesOf parsed
  let roles ← mapE (resolveRole mapped globalT manifestFilePath) roles0
  pure { Roles := roles, Configuration := some ⟨some globalT⟩,
         manifestFilePath := manifestFilePath }

/-! ## Statement-side definitions

These render parts of the specification's prose as Lean functions, to be
compared with the embedded code above. -/

/-- "Concatenating, newline-separated" in the signature-string format the code
produces: every element is preceded by a newline. -/
def joinNL (xs : List String) : String := xs.foldl (fun s x => s ++ "\n" ++ x) ""

/-- The claim's description of `GetRoleDevVersion`'s job/package portion: each
job's stored checksum in declaration order, then the packages reachable from
those jobs *deduplicated across jobs* and sorted by package identity. -/
def claimC1Signature (r : Role) : String :=
  joinNL (r.Jobs.map Job.SHA1 ++
    (List.insertionSort pkgLe (r.Jobs.flatMap Job.Packages).dedup).map Package.SHA1)

/-- Whether the role declares any scripts. -/
def scriptsDeclared (r : Role) : Bool :=
  !r.EnvironScripts.isEmpty || !r.Scripts.isEmpty || !r.PostConfigScripts.isEmpty

/-- Whether the role has any templates configured (a nonempty template map). -/
def templatesConfigured (r : Role) : Bool := !(templatesOf r).isEmpty

/-- The claim's description of the full signature string: the script signature
appears only if any scripts are declared, and the template signature only if
any templates are configured. -/
def claimC2Signature (fs : FS) (r : Role) : Except String String := do
  let base := rolePkgSignature r
  let s1 ←
    if scriptsDeclared r then
      (GetScriptSignatures fs r).map (fun sig => base ++ "\n" ++ sig)
    else pure base
  pure (if templatesConfigured r then s1 ++ "\n" ++ GetTemplateSignatures r else s1)

/-- The spec's description of `GetRoleManifestDevPackageVersion`: a running
hash seeded with the salt and then fed each role's dev version in
sorted-role-name order. -/
def specManifestVersion (fs : FS) (m : RoleManifest) (extra : String) : Except String String :=
  (mapE (GetRoleDevVersion fs) (List.insertionSort roleLe m.Roles)).map
    (fun vs => hexEncode (sha1 (strBytes extra ++ vs.flatMap strBytes)))

/-! ## A store model for the slice-mutation claims

Go slices alias a backing array.  To state that signature computation does not
mutate the loaded model, the relevant slices are placed in an explicit store
(`List` of backing arrays, addressed by index), and the code's slice
operations become store operations: `append` to a slice of capacity 0 (the
literals `Roles{}` and `var packages Packages` in the source) always
allocates, which is modelled by appending a fresh cell to the store;
`sort.Sort` reorders a given cell in place. -/

/-- Read the backing array at index `i`. -/
def storeGet {α : Type} (σ : List (List α)) (i : Nat) : List α := (σ.getD i [])

/-- Overwrite the backing array at index `i`. -/
def storeSet {α : Type} (σ : List (List α)) (i : Nat) (v : List α) : List (List α) := σ.set i v

/-- `GetRoleManifestDevPackageVersion` with the roles slice in a store:
`roles := append(Roles{}, m.Roles...)` copies the cell at `k` into a fresh
cell, `sort.Sort(roles)` sorts that fresh cell in place, and the hash loop
reads the sorted copy. -/
def devPackageVersionSt (fs : FS) (σ : List (List Role)) (k : Nat) (extra : String) :
    Except String String × List (List Role) :=
  let cid := σ.length
  let σ1 := σ ++ [storeGet σ k]
  let σ2 := storeSet σ1 cid (List.insertionSort roleLe (storeGet σ1 cid))
  ((hashRoleVersions fs (storeGet σ2 cid) (strBytes extra)).map
      (fun bytes => hexEncode (sha1 bytes)),
   σ2)

/-- A job as seen by `GetRoleDevVersion`'s package loop: its checksum and the
store index of its `Packages` backing array. -/
structure JobSlice where
  SHA1 : String
  pkgsId : Nat

/-- The package accumulation of `GetRoleDevVersion` with slices in a store:
`var packages Packages` is a fresh empty cell; each
`packages = append(packages, job.Packages...)` extends that cell (reading the
job's cell); `sort.Sort(packages)` sorts the fresh cell in place.  Returns the
sorted package list together with the final store. -/
def devVersionPackagesSt (σ : List (List Package)) (jobs : List JobSlice) :
    List Package × List (List Package) :=
  let pid := σ.length
  let σ1 := σ ++ [[]]
  let σ2 := jobs.foldl
    (fun σc job => storeSet σc pid (storeGet σc pid ++ storeGet σc job.pkgsId)) σ1
  let σ3 := storeSet σ2 pid (List.insertionSort pkgLe (storeGet σ2 pid))
  (storeGet σ3 pid, σ3)

/-! ## Properties of the string order -/

theorem char_toNat_inj {a b : Char} (h : a.toNat = b.toNat) : a = b :=
  Char.ext (UInt32.ext h)

theorem charListLe_total : ∀ as bs, charListLe as bs = true ∨ charListLe bs as = true := by
  intro as
  induction as with
  | nil => intro bs; left; rfl
  | cons a as ih =>
    intro bs
    cases bs with
    | nil => right; rfl
    | cons b bs =>
      simp only [charListLe]
      rcases Nat.lt_trichotomy a.toNat b.toNat with h | h | h
      · left; simp [h]
      · have h1 : ¬ a.toNat < b.toNat := by omega
        have h2 : ¬ b.toNat < a.toNat := by omega
        rw [if_neg h1, if_neg h2, if_pos h, if_pos h.symm]
        exact ih bs
      · right; simp [h]

theorem charListLe_trans :
    ∀ {as bs cs}, charListLe as bs = true → charListLe bs cs = true → charListLe as cs = true := by
  intro as
  induction as with
  | nil => intro bs cs _ _; rfl
  | cons a as ih =>
    intro bs cs h1 h2
    cases bs with
    | nil => simp [charListLe] at h1
    | cons b bs =>
      cases cs with
      | nil => simp [charListLe] at h2
      | cons c cs =>
        simp only [charListLe] at h1 h2 ⊢
        rcases Nat.lt_trichotomy a.toNat b.toNat with hab | hab | hab
        · -- a < b: then b ≤ c in both remaining cases gives a < c
          rcases Nat.lt_trichotomy b.toNat c.toNat with hbc | hbc | hbc
          · simp [show a.toNat < c.toNat by omega]
          · simp [show a.toNat < c.toNat by omega]
          · simp [show ¬ b.toNat < c.toNat by omega, show b.toNat ≠ c.toNat by omega] at h2
        · rcases Nat.lt_trichotomy b.toNat c.toNat with hbc | hbc | hbc
          · simp [show a.toNat < c.toNat by omega]
          · have hac : a.toNat = c.toNat := by omega
            simp [show ¬ a.toNat < b.toNat by omega, hab] at h1
            simp [show ¬ b.toNat < c.toNat by omega, hbc] at h2
            simp [show ¬ a.toNat < c.toNat by omega, hac]
            exact ih h1 h2
          · simp [show ¬ b.toNat < c.toNat by omega, show b.toNat ≠ c.toNat by omega] at h2
        · simp [show ¬ a.toNat < b.toNat by omega, show a.toNat ≠ b.toNat by omega] at h1

theorem charListLe_antisymm :
    ∀ {as bs}, charListLe as bs = true → charListLe bs as = true → as = bs := by
  intro as
  induction as with
  | nil =>
    intro bs _ h2
    cases bs with
    | nil => rfl
    | cons b bs => simp [charListLe] at h2
  | cons a as ih =>
    intro bs h1 h2
    cases bs with
    | nil => simp [charListLe] at h1
    | cons b bs =>
      simp only [charListLe] at h1 h2
      rcases Nat.lt_trichotomy a.toNat b.toNat with hab | hab | hab
      · simp [show ¬ b.toNat < a.toNat by omega, show b.toNat ≠ a.toNat by omega] at h2
      · have he : a = b := char_toNat_inj hab
        subst he
        simp [Nat.lt_irrefl] at h1 h2
        rw [ih h1 h2]
      · simp [show ¬ a.toNat < b.toNat by omega, show a.toNat ≠ b.toNat by omega] at h1

instance : IsTotal String strLe := ⟨fun a b => charListLe_total a.data b.data⟩

instance : IsTrans String strLe := ⟨fun _ _ _ h1 h2 => charListLe_trans h1 h2⟩

instance : IsAntisymm String strLe := by
  constructor
  intro a b h1 h2
  cases a with
  | mk da =>
    cases b with
    | mk db => exact congrArg String.mk (charListLe_antisymm h1 h2)

instance : IsTotal Role roleLe := ⟨fun a b => charListLe_total a.Name.data b.Name.data⟩

instance : IsTrans Role roleLe := ⟨fun _ _ _ h1 h2 => charListLe_trans h1 h2⟩

instance : IsTotal Package pkgLe := ⟨fun a b => charListLe_total a.Name.data b.Name.data⟩

instance : IsTrans Package pkgLe := ⟨fun _ _ _ h1 h2 => charListLe_trans h1 h2⟩

theorem strLe_antisymm {a b : String} (h1 : strLe a b) (h2 : strLe b a) : a = b :=
  IsAntisymm.antisymm a b h1 h2

/-! ## Sorted permutations -/

/-- `List.eq_of_perm_of_sorted`, with antisymmetry required only on the
members of the lists (needed where distinct roles or packages may in general
share a name, and the hypothesis excludes it only for the lists at hand). -/
theorem eq_of_perm_sorted_mem {α : Type} {r : α → α → Prop} :
    ∀ {l1 l2 : List α}, l1.Perm l2 → l1.Sorted r → l2.Sorted r →
      (∀ a ∈ l1, ∀ b ∈ l1, r a b → r b a → a = b) → l1 = l2 := by
  intro l1
  induction l1 with
  | nil =>
    intro l2 p _ _ _
    exact (p.nil_eq).symm ▸ rfl
  | cons a t1 ih =>
    intro l2 p s1 s2 anti
    cases l2 with
    | nil => exact absurd p.symm.nil_eq (by simp)
    | cons b t2 =>
      by_cases hab : a = b
      · subst hab
        have ht := ih p.cons_inv s1.of_cons s2.of_cons
          (fun x hx y hy => anti x (List.mem_cons_of_mem _ hx) y (List.mem_cons_of_mem _ hy))
        rw [ht]
      · exfalso
        have hb1 : b ∈ a :: t1 := p.mem_iff.mpr (List.mem_cons_self b t2)
        have ha2 : a ∈ b :: t2 := p.mem_iff.mp (List.mem_cons_self a t1)
        have hb1t : b ∈ t1 := by
          cases List.mem_cons.mp hb1 with
          | inl h => exact absurd h.symm hab
          | inr h => exact h
        have ha2t : a ∈ t2 := by
          cases List.mem_cons.mp ha2 with
          | inl h => exact absurd h hab
          | inr h => exact h
        have rab : r a b := List.rel_of_sorted_cons s1 b hb1t
        have rba : r b a := List.rel_of_sorted_cons s2 a ha2t
        exact hab (anti a (List.mem_cons_self a t1) b hb1 rab rba)

/-- Sorting two permuted lists gives the same list, provided the order is
antisymmetric on their members. -/
theorem insertionSort_eq_of_perm {α : Type} (r : α → α → Prop) [DecidableRel r]
    [IsTotal α r] [IsTrans α r] {l1 l2 : List α} (p : l1.Perm l2)
    (anti : ∀ a ∈ l1, ∀ b ∈ l1, r a b → r b a → a = b) :
    List.insertionSort r l1 = List.insertionSort r l2 := by
  refine eq_of_perm_sorted_mem
    ((List.perm_insertionSort r l1).trans (p.trans (List.perm_insertionSort r l2).symm))
    (List.sorted_insertionSort r l1) (List.sorted_insertionSort r l2) ?_
  intro a ha b hb
  exact anti a ((List.perm_insertionSort r l1).mem_iff.mp ha)
    b ((List.perm_insertionSort r l1).mem_iff.mp hb)

/-- Two permuted string lists sort identically. -/
theorem insertionSort_strings_eq_of_perm {l1 l2 : List String} (p : l1.Perm l2) :
    List.insertionSort strLe l1 = List.insertionSort strLe l2 :=
  insertionSort_eq_of_perm strLe p (fun _ _ _ _ h1 h2 => strLe_antisymm h1 h2)

/-! ## Shape of the signature strings -/

theorem foldl_nl_id :
    ∀ (ys : List String) (s : String),
      ys.foldl (fun s y => s ++ "\n" ++ y) s = s ++ joinNL ys := by
  intro ys
  induction ys with
  | nil => intro s; simp [joinNL, String.append_empty]
  | cons y ys ih =>
    intro s
    simp only [List.foldl_cons]
    rw [ih]
    have h2 : joinNL (y :: ys) = ("\n" ++ y) ++ joinNL ys := by
      show ys.foldl (fun s y => s ++ "\n" ++ y) ("" ++ "\n" ++ y) = _
      rw [ih]
      simp [String.empty_append]
    rw [h2]
    simp [String.append_assoc]

theorem foldl_nl_eq {α : Type} (f : α → String) (xs : List α) (s : String) :
    xs.foldl (fun s x => s ++ "\n" ++ f x) s = s ++ joinNL (xs.map f) := by
  rw [← List.foldl_map f (fun s y => s ++ "\n" ++ y) xs s, foldl_nl_id]

theorem joinNL_append (xs ys : List String) : joinNL (xs ++ ys) = joinNL xs ++ joinNL ys := by
  show (xs ++ ys).foldl (fun s y => s ++ "\n" ++ y) "" = _
  rw [List.foldl_append]
  have h1 := foldl_nl_id ys (joinNL xs)
  simpa using h1

theorem foldl_pair_jobs (jobs : List Job) (s0 : String) (p0 : List Package) :
    jobs.foldl
        (fun (sp : String × List Package) job =>
          (sp.1 ++ "\n" ++ job.SHA1, sp.2 ++ job.Packages)) (s0, p0)
      = (s0 ++ joinNL (jobs.map Job.SHA1), p0 ++ jobs.flatMap Job.Packages) := by
  induction jobs generalizing s0 p0 with
  | nil => simp [joinNL, String.append_empty]
  | cons j js ih =>
    simp only [List.foldl_cons, List.map_cons, List.flatMap_cons]
    rw [ih]
    simp only [Prod.mk.injEq]
    constructor
    · have h2 : joinNL (j.SHA1 :: js.map Job.SHA1) = ("\n" ++ j.SHA1) ++ joinNL (js.map Job.SHA1) := by
        have := joinNL_append [j.SHA1] (js.map Job.SHA1)
        simpa [joinNL, String.empty_append] using this
      rw [h2]
      simp [String.append_assoc]
    · rw [List.append_assoc]

/-- The job/package portion of the signature string, in the map/join form:
each job's checksum in declaration order, then the (not deduplicated)
concatenation of the jobs' package lists, sorted, by checksum. -/
theorem rolePkgSignature_shape (r : Role) :
    rolePkgSignature r =
      joinNL (r.Jobs.map Job.SHA1 ++
        (List.insertionSort pkgLe (r.Jobs.flatMap Job.Packages)).map Package.SHA1) := by
  show (List.insertionSort pkgLe
      (r.Jobs.foldl (fun (sp : String × List Package) job =>
          (sp.1 ++ "\n" ++ job.SHA1, sp.2 ++ job.Packages)) ("", [])).2).foldl
      (fun s p => s ++ "\n" ++ p.SHA1)
      (r.Jobs.foldl (fun (sp : String × List Package) job =>
          (sp.1 ++ "\n" ++ job.SHA1, sp.2 ++ job.Packages)) ("", [])).1 = _
  rw [foldl_pair_jobs, joinNL_append]
  simp only [String.empty_append, List.nil_append]
  rw [foldl_nl_eq Package.SHA1]

/-- The full signature string in which-part-appears-when form: the job/package
portion, always followed by the script signature, and followed by the template
signature exactly when the configuration and its template map are non-nil. -/
theorem roleSignature_shape (fs : FS) (r : Role) :
    roleSignature fs r =
      (GetScriptSignatures fs r).map (fun sig =>
        rolePkgSignature r ++ "\n" ++ sig ++
          (if templatesPresent r then "\n" ++ GetTemplateSignatures r else "")) := by
  unfold roleSignature
  cases hs : GetScriptSignatures fs r with
  | error e => rfl
  | ok sig =>
    cases hc : r.Configuration with
    | none =>
      simp [templatesPresent, hc, Except.map, String.append_empty]
    | some c =>
      cases ht : c.Templates with
      | none => simp [templatesPresent, hc, ht, Except.map, String.append_empty]
      | some t => simp [templatesPresent, hc, ht, Except.map, String.append_assoc]

/-! ## The hashing loop as a map -/

theorem hashRoleVersions_eq (fs : FS) :
    ∀ (roles : List Role) (acc : List Nat),
      hashRoleVersions fs roles acc =
        (mapE (GetRoleDevVersion fs) roles).map (fun vs => acc ++ vs.flatMap strBytes) := by
  intro roles
  induction roles with
  | nil => intro acc; simp [hashRoleVersions, mapE, Except.map]
  | cons role rest ih =>
    intro acc
    simp only [hashRoleVersions, mapE]
    cases h : GetRoleDevVersion fs role with
    | error e => simp [Except.map, Except.bind, bind]
    | ok v =>
      simp only [Except.bind, bind]
      rw [ih]
      cases hm : mapE (GetRoleDevVersion fs) rest with
      | error e => simp [Except.map]
      | ok vs => simp [Except.map, List.append_assoc, pure, Except.pure]

/-! ## mapE and resolution prefix lemmas -/

theorem mapE_append_error {α β : Type} (f : α → Except String β) :
    ∀ (pre l : List α) (e : String), (∀ x ∈ pre, ∃ y, f x = .ok y) →
      mapE f l = .error e → mapE f (pre ++ l) = .error e := by
  intro pre
  induction pre with
  | nil => intro l e _ he; simpa using he
  | cons a ps ih =>
    intro l e hp he
    obtain ⟨y, hy⟩ := hp a (List.mem_cons_self a ps)
    simp only [List.cons_append, mapE, hy, Except.bind, bind, List.append_eq]
    rw [ih l e (fun x hx => hp x (List.mem_cons_of_mem a hx)) he]

theorem mapE_ok_pres {α β γ : Type} {f : α → Except String β} {g : α → γ} {g2 : β → γ}
    (hp : ∀ x y, f x = .ok y → g2 y = g x) :
    ∀ {l : List α} {ys : List β}, mapE f l = .ok ys → ys.map g2 = l.map g := by
  intro l
  induction l with
  | nil =>
    intro ys h
    simp only [mapE] at h
    cases h
    rfl
  | cons a as ih =>
    intro ys h
    simp only [mapE, Except.bind, bind] at h
    cases hfa : f a with
    | error e => rw [hfa] at h; cases h
    | ok b =>
      rw [hfa] at h
      cases hm : mapE f as with
      | error e => rw [hm] at h; cases h
      | ok bs =>
        rw [hm] at h
        simp only [pure, Except.pure] at h
        cases h
        simp only [List.map_cons]
        rw [hp a b hfa, ih hm]

theorem resolveJobRefs_append_error (mapped : List (String × Release)) (rn : String) :
    ∀ (qpre l : List roleJob) (e : String),
      (∀ q ∈ qpre, ∃ rel j, getA mapped q.ReleaseName = some rel ∧ LookupJob rel q.Name = .ok j) →
      resolveJobRefs mapped rn l = .error e → resolveJobRefs mapped rn (qpre ++ l) = .error e := by
  intro qpre
  induction qpre with
  | nil => intro l e _ he; simpa using he
  | cons q qs ih =>
    intro l e hp he
    obtain ⟨rel, j, hrel, hjob⟩ := hp q (List.mem_cons_self q qs)
    simp only [List.cons_append, resolveJobRefs, hrel, hjob, Except.bind, bind, List.append_eq]
    rw [ih l e (fun x hx => hp x (List.mem_cons_of_mem q hx)) he]

/-! ## Association-list lemmas -/

theorem getA_setA {α : Type} :
    ∀ (m : List (String × α)) (k k2 : String) (v : α),
      getA (setA m k v) k2 = if k = k2 then some v else getA m k2 := by
  intro m
  induction m with
  | nil => intro k k2 v; simp [setA, getA]
  | cons kv rest ih =>
    intro k k2 v
    obtain ⟨k0, v0⟩ := kv
    by_cases h0 : k0 = k
    · subst h0
      simp only [setA, if_pos rfl, getA]
      by_cases h2 : k0 = k2
      · subst h2; simp
      · simp [h2]
    · simp only [setA, if_neg h0, getA]
      by_cases h2 : k0 = k2
      · subst h2
        have : ¬ k0 = k := h0
        simp [getA, show k ≠ k0 from fun he => h0 he.symm]
      · simp [h2, ih]

theorem getA_eq_none_iff {α : Type} :
    ∀ (m : List (String × α)) (k : String), getA m k = none ↔ k ∉ m.map Prod.fst := by
  intro m
  induction m with
  | nil => intro k; simp [getA]
  | cons kv rest ih =>
    intro k
    obtain ⟨k0, v0⟩ := kv
    simp only [getA, List.map_cons, List.mem_cons]
    by_cases h0 : k0 = k
    · subst h0; simp
    · simp [h0, ih, fun he : k = k0 => h0 he.symm]
      intro
      exact fun he => h0 he.symm

theorem getA_some_mem {α : Type} {m : List (String × α)} {k : String} {v : α}
    (h : getA m k = some v) : k ∈ m.map Prod.fst := by
  by_contra hk
  rw [(getA_eq_none_iff m k).mpr hk] at h
  cases h

theorem setA_fst_of_none {α : Type} :
    ∀ (m : List (String × α)) (k : String) (v : α), getA m k = none →
      (setA m k v).map Prod.fst = m.map Prod.fst ++ [k] := by
  intro m
  induction m with
  | nil => intro k v _; simp [setA]
  | cons kv rest ih =>
    intro k v h
    obtain ⟨k0, v0⟩ := kv
    simp only [getA] at h
    by_cases h0 : k0 = k
    · simp [h0] at h
    · simp only [setA, if_neg h0, List.map_cons, List.cons_append]
      rw [ih k v (by simpa [h0] using h)]

/-! ## The backward role-filtering loop is an order-preserving filter -/

theorem sweepRoles_general :
    ∀ (pre suf : List Role),
      sweepRoles (pre ++ suf) pre.length = pre.filter (fun r => !removeCond r) ++ suf := by
  intro pre
  induction pre using List.reverseRecOn with
  | nil => intro suf; simp [sweepRoles]
  | append_singleton ps x ih =>
    intro suf
    have hlen : (ps ++ [x]).length = ps.length + 1 := by simp
    rw [hlen]
    show sweepRoles ((ps ++ [x]) ++ suf) (ps.length + 1) = _
    have hget : ((ps ++ [x]) ++ suf)[ps.length]? = some x := by
      rw [List.append_assoc, List.getElem?_append_right (Nat.le_refl ps.length)]
      simp
    simp only [sweepRoles, hget]
    by_cases hrc : removeCond x
    · have htake : ((ps ++ [x]) ++ suf).take ps.length = ps := by
        rw [List.append_assoc]
        exact List.take_left ps ([x] ++ suf)
      have hdrop : ((ps ++ [x]) ++ suf).drop (ps.length + 1) = suf := by
        rw [← hlen]
        exact List.drop_left (ps ++ [x]) suf
      simp only [hrc, if_pos, removeAt, htake, hdrop]
      rw [ih suf]
      simp [List.filter_append, hrc]
    · simp only [hrc, if_neg, Bool.false_eq_true, not_false_eq_true]
      rw [List.append_assoc, ih ([x] ++ suf)]
      simp [List.filter_append, hrc]

theorem sweepRoles_eq_filter (roles : List Role) :
    sweepRoles roles roles.length = roles.filter (fun r => !removeCond r) := by
  have h := sweepRoles_general roles []
  simpa using h

/-! ## The duplicate-release check -/

theorem buildMapped_dup :
    ∀ (rels : List Release) (m : List (String × Release)),
      (m.map Prod.fst).Nodup →
      ¬ (m.map Prod.fst ++ rels.map Release.Name).Nodup →
      ∃ n, n ∈ rels.map Release.Name ∧
        (n ∈ m.map Prod.fst ∨ 2 ≤ (rels.map Release.Name).count n) ∧
        buildMapped rels m =
          .error ("Error - release " ++ n ++ " has been loaded more than once") := by
  intro rels
  induction rels with
  | nil =>
    intro m hm hnd
    rw [List.map_nil, List.append_nil] at hnd
    exact absurd hm hnd
  | cons rel rest ih =>
    intro m hm hnd
    cases hg : getA m rel.Name with
    | some r0 =>
      refine ⟨rel.Name, by rw [List.map_cons]; exact List.mem_cons_self _ _,
        Or.inl (getA_some_mem hg), ?_⟩
      simp only [buildMapped, hg]
    | none =>
      have hnotmem : rel.Name ∉ m.map Prod.fst := (getA_eq_none_iff m rel.Name).mp hg
      have hkeys : (setA m rel.Name rel).map Prod.fst = m.map Prod.fst ++ [rel.Name] :=
        setA_fst_of_none m rel.Name rel hg
      have hm2 : ((setA m rel.Name rel).map Prod.fst).Nodup := by
        rw [hkeys]
        refine List.Nodup.append hm (List.nodup_singleton _) ?_
        intro a ha hb
        rw [List.mem_singleton] at hb
        subst hb
        exact hnotmem ha
      have hnd2 : ¬ ((setA m rel.Name rel).map Prod.fst ++ rest.map Release.Name).Nodup := by
        rw [hkeys, List.append_assoc, List.singleton_append]
        intro hcon
        apply hnd
        rw [List.map_cons]
        exact hcon
      obtain ⟨n, hn, hdup, he⟩ := ih (setA m rel.Name rel) hm2 hnd2
      refine ⟨n, by rw [List.map_cons]; exact List.mem_cons_of_mem _ hn, ?_, ?_⟩
      · rw [List.map_cons]
        rcases hdup with hk | hc
        · rw [hkeys] at hk
          rcases List.mem_append.mp hk with hk1 | hk1
          · exact Or.inl hk1
          · rw [List.mem_singleton] at hk1
            subst hk1
            refine Or.inr ?_
            rw [List.count_cons_self]
            have h1 : 1 ≤ (rest.map Release.Name).count rel.Name := List.one_le_count_iff.mpr hn
            omega
        · refine Or.inr ?_
          exact le_trans hc (List.count_le_count_cons n rel.Name (rest.map Release.Name))
      · simp only [buildMapped, hg]
        exact he

/-! ## The manifest normalizer -/

theorem fixYamlBinaryF_fuel :
    ∀ (f1 f2 : Nat) (s : List Char), s.length ≤ f1 → s.length ≤ f2 →
      fixYamlBinaryF f1 s = fixYamlBinaryF f2 s := by
  intro f1
  induction f1 with
  | zero =>
    intro f2 s h1 _
    have : s = [] := List.eq_nil_of_length_eq_zero (Nat.le_zero.mp h1)
    subst this
    cases f2 <;> rfl
  | succ f1 ih =>
    intro f2 s h1 h2
    cases s with
    | nil => cases f2 <;> rfl
    | cons c rest =>
      cases f2 with
      | zero => simp at h2
      | succ f2 =>
        simp only [fixYamlBinaryF]
        by_cases hc : c ≠ '!' ∧ yamlTag.isPrefixOf rest
        · rw [if_pos hc, if_pos hc]
          have hd : (rest.drop yamlTag.length).length ≤ f1 := by
            simp only [List.length_drop]
            simp only [List.length_cons] at h1
            omega
          have hd2 : (rest.drop yamlTag.length).length ≤ f2 := by
            simp only [List.length_drop]
            simp only [List.length_cons] at h2
            omega
          rw [ih f2 _ hd hd2]
        · rw [if_neg hc, if_neg hc]
          have hr : rest.length ≤ f1 := by simp only [List.length_cons] at h1; omega
          have hr2 : rest.length ≤ f2 := by simp only [List.length_cons] at h2; omega
          rw [ih f2 rest hr hr2]

theorem fixYamlBinaryF_eq_fix (f : Nat) (s : List Char) (h : s.length ≤ f) :
    fixYamlBinaryF f s = fixYamlBinary s :=
  fixYamlBinaryF_fuel f s.length s h (Nat.le_refl _)

/-- A match at the current scan position is rewritten. -/
theorem fixYamlBinary_match (c : Char) (s : List Char) (hc : c ≠ '!') :
    fixYamlBinary (c :: yamlTag ++ s) = c :: yamlTagFixed ++ fixYamlBinary s := by
  have hpre : yamlTag.isPrefixOf (yamlTag ++ s) = true := by
    have : ∀ (l t : List Char), l.isPrefixOf (l ++ t) = true := by
      intro l
      induction l with
      | nil => intro t; simp [List.isPrefixOf]
      | cons a as ih2 => intro t; simp [List.isPrefixOf, ih2]
    exact this yamlTag s
  show fixYamlBinaryF (c :: (yamlTag ++ s)).length (c :: (yamlTag ++ s)) = _
  rw [List.length_cons]
  simp only [fixYamlBinaryF]
  rw [if_pos ⟨hc, hpre⟩, List.drop_left yamlTag s,
    fixYamlBinaryF_eq_fix ((yamlTag ++ s).length) s
      (by rw [List.length_append]; exact Nat.le_add_left _ _)]

/-- A non-match at the current scan position is copied. -/
theorem fixYamlBinary_skip (c : Char) (s : List Char)
    (h : c = '!' ∨ yamlTag.isPrefixOf s = false) :
    fixYamlBinary (c :: s) = c :: fixYamlBinary s := by
  show fixYamlBinaryF (c :: s).length (c :: s) = _
  simp only [List.length_cons, fixYamlBinaryF]
  have hneg : ¬ (c ≠ '!' ∧ yamlTag.isPrefixOf s) := by
    rcases h with h | h
    · intro hcon; exact hcon.1 h
    · intro hcon; rw [h] at hcon; exact Bool.false_ne_true hcon.2
  rw [if_neg hneg]
  rfl

/-! ## The license-file map -/

theorem loadLicenseFiles_aux :
    ∀ (entries m : List (String × List Nat)) (k : String),
      getA (entries.foldl
          (fun files e => if keepLicense e.1 then setA files (basename e.1) e.2 else files) m) k
        = match (entries.filter (fun e => keepLicense e.1)).reverse.find?
              (fun e => basename e.1 == k) with
          | some e => some e.2
          | none => getA m k := by
  intro entries
  induction entries with
  | nil => intro m k; rfl
  | cons e es ih =>
    intro m k
    simp only [List.foldl_cons, List.filter_cons]
    by_cases hke : keepLicense e.1
    · simp only [hke, if_pos, List.reverse_cons, List.find?_append]
      rw [ih]
      cases hf : (es.filter (fun e => keepLicense e.1)).reverse.find? (fun e => basename e.1 == k) with
      | some x => simp [hf, Option.or]
      | none =>
        simp only [hf, Option.or]
        by_cases hk : basename e.1 = k
        · simp [List.find?, hk, getA_setA]
        · have hbeq : (basename e.1 == k) = false := by
            simp [hk]
          simp [List.find?, hbeq, getA_setA, hk]
    · simp only [hke, if_neg, Bool.false_eq_true, not_false_eq_true]
      rw [ih]

/-! ## Store lemmas for the frame claims -/

theorem storeGet_append_left {α : Type} (σ τ : List (List α)) (i : Nat) (h : i < σ.length) :
    storeGet (σ ++ τ) i = storeGet σ i :=
  List.getD_append σ τ [] i h

theorem storeGet_set_ne {α : Type} (σ : List (List α)) (i j : Nat) (v : List α) (h : i ≠ j) :
    storeGet (storeSet σ i v) j = storeGet σ j := by
  unfold storeGet storeSet
  rw [List.getD_eq_getElem?_getD, List.getD_eq_getElem?_getD, List.getElem?_set_ne h]

theorem storeGet_set_self {α : Type} (σ : List (List α)) (i : Nat) (v : List α)
    (h : i < σ.length) : storeGet (storeSet σ i v) i = v := by
  unfold storeGet storeSet
  rw [List.getD_eq_getElem?_getD, List.getElem?_set]
  simp [h]

theorem foldStorePkgs_frame (pid : Nat) :
    ∀ (jobs : List JobSlice) (σc : List (List Package)) (j : Nat), j ≠ pid →
      storeGet (jobs.foldl
          (fun σa job => storeSet σa pid (storeGet σa pid ++ storeGet σa job.pkgsId)) σc) j
        = storeGet σc j := by
  intro jobs
  induction jobs with
  | nil => intro σc j _; rfl
  | cons jb jbs ih =>
    intro σc j hj
    simp only [List.foldl_cons]
    rw [ih _ j hj, storeGet_set_ne _ _ _ _ (fun he => hj he.symm)]

theorem foldStorePkgs_content (pid : Nat) :
    ∀ (jobs : List JobSlice) (σc : List (List Package)),
      (∀ jb ∈ jobs, jb.pkgsId ≠ pid) → pid < σc.length →
      storeGet (jobs.foldl
          (fun σa job => storeSet σa pid (storeGet σa pid ++ storeGet σa job.pkgsId)) σc) pid
        = storeGet σc pid ++ jobs.flatMap (fun jb => storeGet σc jb.pkgsId) := by
  intro jobs
  induction jobs with
  | nil => intro σc _ _; simp
  | cons jb jbs ih =>
    intro σc hids hlen
    simp only [List.foldl_cons, List.flatMap_cons]
    rw [ih _ (fun x hx => hids x (List.mem_cons_of_mem jb hx))
      (by unfold storeSet; rw [List.length_set]; exact hlen)]
    rw [storeGet_set_self _ _ _ hlen]
    have hread : ∀ x ∈ jbs, storeGet (storeSet σc pid
        (storeGet σc pid ++ storeGet σc jb.pkgsId)) x.pkgsId = storeGet σc x.pkgsId := by
      intro x hx
      exact storeGet_set_ne _ _ _ _ (fun he => hids x (List.mem_cons_of_mem jb hx) he.symm)
    rw [List.flatMap_def, List.flatMap_def,
      List.map_congr_left (fun x hx => congrArg (fun σ2 => storeGet σ2 x.pkgsId) rfl)]
    rw [show (jbs.map fun x => storeGet (storeSet σc pid
        (storeGet σc pid ++ storeGet σc jb.pkgsId)) x.pkgsId)
        = jbs.map fun x => storeGet σc x.pkgsId from List.map_congr_left hread]
    rw [List.append_assoc]

theorem foldStorePkgs_length (pid : Nat) :
    ∀ (jobs : List JobSlice) (σc : List (List Package)),
      (jobs.foldl
          (fun σa job => storeSet σa pid (storeGet σa pid ++ storeGet σa job.pkgsId)) σc).length
        = σc.length := by
  intro jobs
  induction jobs with
  | nil => intro σc; rfl
  | cons jb jbs ih =>
    intro σc
    rw [List.foldl_cons, ih]
    unfold storeSet
    rw [List.length_set]

theorem storeGet_append_self {α : Type} (σ : List (List α)) (v : List α) :
    storeGet (σ ++ [v]) σ.length = v := by
  unfold storeGet
  rw [List.getD_append_right _ _ _ _ (Nat.le_refl _)]
  simp

/-! ## The claims -/

/-- C1 (corrected), counterexample: the claim says the packages reachable from
a role's jobs are deduplicated across jobs before being sorted and appended to
the signature string; the code concatenates the jobs' package lists without
deduplication, so a package shared by two jobs contributes its checksum twice
and the built string differs from the claimed one. -/
theorem claim_C1_counterexample :
    rolePkgSignature
        ⟨"r", [⟨"j1", "JSHA1", [⟨"a", "PSHA"⟩]⟩, ⟨"j2", "JSHA2", [⟨"a", "PSHA"⟩]⟩],
         [], [], [], "", [], none, "m.yml"⟩
      ≠ claimC1Signature
        ⟨"r", [⟨"j1", "JSHA1", [⟨"a", "PSHA"⟩]⟩, ⟨"j2", "JSHA2", [⟨"a", "PSHA"⟩]⟩],
         [], [], [], "", [], none, "m.yml"⟩ := by
  decide

/-- C1 (amended): for every Role, `GetRoleDevVersion` builds the job/package
portion of its pre-hash signature string by concatenating, newline-separated,
each of the Role's Jobs' stored SHA1 checksums in manifest declaration order
(jobs are not sorted), followed by the SHA1 of every package occurrence
reachable from those jobs — the concatenation of the jobs' package lists,
duplicates retained — sorted by package identity. -/
theorem claim_C1 (r : Role) :
    rolePkgSignature r =
      joinNL (r.Jobs.map Job.SHA1 ++
        (List.insertionSort pkgLe (r.Jobs.flatMap Job.Packages)).map Package.SHA1) :=
  rolePkgSignature_shape r

/-- C2 (corrected), counterexample: a role with no scripts at all (and no
configuration).  The claim says the script signature is then omitted from the
hashed string; the code appends it unconditionally (here the SHA-1 of the
empty input), so the built string differs from the claimed one. -/
theorem claim_C2_counterexample :
    roleSignature (fun _ => none) ⟨"r", [], [], [], [], "", [], none, "m.yml"⟩
      ≠ claimC2Signature (fun _ => none) ⟨"r", [], [], [], [], "", [], none, "m.yml"⟩ := by
  decide

/-- C2 (amended): for every Role, `GetRoleDevVersion` always appends the
script signature to the signature string (even when the Role declares no
scripts, in which case it is the SHA-1 of the empty input), and appends the
template signature exactly when the Role's Configuration and its Templates map
are non-nil (regardless of whether any templates are configured in it). -/
theorem claim_C2 (fs : FS) (r : Role) :
    roleSignature fs r =
      (GetScriptSignatures fs r).map (fun sig =>
        rolePkgSignature r ++ "\n" ++ sig ++
          (if templatesPresent r then "\n" ++ GetTemplateSignatures r else "")) :=
  roleSignature_shape fs r

/-- C3 (corrected), counterexample: two manifests holding the same two roles —
both named "a" but with different job checksums — in opposite orders.  The
sort ties on the equal names and preserves manifest order, so the two
manifests hash differently, contradicting the claim's order-independence. -/
theorem claim_C3_counterexample :
    GetRoleManifestDevPackageVersion (fun _ => none)
        ⟨[⟨"a", [⟨"j", "S1", []⟩], [], [], [], "", [], none, "m"⟩,
          ⟨"a", [⟨"j", "S2", []⟩], [], [], [], "", [], none, "m"⟩], none, "m"⟩ "salt"
      ≠ GetRoleManifestDevPackageVersion (fun _ => none)
        ⟨[⟨"a", [⟨"j", "S2", []⟩], [], [], [], "", [], none, "m"⟩,
          ⟨"a", [⟨"j", "S1", []⟩], [], [], [], "", [], none, "m"⟩], none, "m"⟩ "salt" := by
  decide

/-- C3 (amended): `GetRoleManifestDevPackageVersion(salt)` equals the
hex-encoded SHA-1 of a running hash seeded with the salt string and then fed
each Role's dev version in ascending order of role name; when the manifest's
role names are pairwise distinct this is independent of the order in which the
roles appear in the manifest (with duplicate role names, ties keep manifest
order and the order can matter). -/
theorem claim_C3 :
    (∀ (fs : FS) (m : RoleManifest) (extra : String),
        GetRoleManifestDevPackageVersion fs m extra = specManifestVersion fs m extra) ∧
    (∀ (fs : FS) (m m2 : RoleManifest) (extra : String),
        m.Roles.Perm m2.Roles → (m.Roles.map Role.Name).Nodup →
        GetRoleManifestDevPackageVersion fs m extra
          = GetRoleManifestDevPackageVersion fs m2 extra) := by
  constructor
  · intro fs m extra
    unfold GetRoleManifestDevPackageVersion specManifestVersion
    dsimp only
    rw [hashRoleVersions_eq]
    cases hm : mapE (GetRoleDevVersion fs) (List.insertionSort roleLe m.Roles) with
    | error e => rfl
    | ok vs => rfl
  · intro fs m m2 extra hperm hnodup
    have hsort : List.insertionSort roleLe m.Roles = List.insertionSort roleLe m2.Roles := by
      apply insertionSort_eq_of_perm roleLe hperm
      intro a ha b hb rab rba
      exact List.inj_on_of_nodup_map hnodup ha hb (strLe_antisymm rab rba)
    unfold GetRoleManifestDevPackageVersion
    rw [hsort]

/-- C3 witness: a concrete manifest with two distinctly-named roles, checked
against the spec-side formulation and against its own permutation. -/
theorem claim_C3_witness :
    (GetRoleManifestDevPackageVersion (fun _ => none)
        ⟨[⟨"b", [⟨"j", "S1", []⟩], [], [], [], "", [], none, "m"⟩,
          ⟨"a", [⟨"j", "S2", []⟩], [], [], [], "", [], none, "m"⟩], none, "m"⟩ "salt"
      = specManifestVersion (fun _ => none)
        ⟨[⟨"b", [⟨"j", "S1", []⟩], [], [], [], "", [], none, "m"⟩,
          ⟨"a", [⟨"j", "S2", []⟩], [], [], [], "", [], none, "m"⟩], none, "m"⟩ "salt") ∧
    (GetRoleManifestDevPackageVersion (fun _ => none)
        ⟨[⟨"b", [⟨"j", "S1", []⟩], [], [], [], "", [], none, "m"⟩,
          ⟨"a", [⟨"j", "S2", []⟩], [], [], [], "", [], none, "m"⟩], none, "m"⟩ "salt"
      = GetRoleManifestDevPackageVersion (fun _ => none)
        ⟨[⟨"a", [⟨"j", "S2", []⟩], [], [], [], "", [], none, "m"⟩,
          ⟨"b", [⟨"j", "S1", []⟩], [], [], [], "", [], none, "m"⟩], none, "m"⟩ "salt") :=
  ⟨claim_C3.1 _ _ _, claim_C3.2 _ _ _ _ (by decide) (by decide)⟩

/-- C4 (corrected), counterexample: two distinct packages with the same name
"a".  Swapping them in a job's package list swaps their position after the
name-sort (which ties), so `GetRoleDevVersion` changes, contradicting the
claimed order-independence. -/
theorem claim_C4_counterexample :
    GetRoleDevVersion (fun _ => none)
        ⟨"r", [⟨"j", "S", [⟨"a", "shaX"⟩, ⟨"a", "shaY"⟩]⟩], [], [], [], "", [], none, "m.yml"⟩
      ≠ GetRoleDevVersion (fun _ => none)
        ⟨"r", [⟨"j", "S", [⟨"a", "shaY"⟩, ⟨"a", "shaX"⟩]⟩], [], [], [], "", [], none, "m.yml"⟩ := by
  decide

/-- C4 (amended): permuting the packages reachable through a Role's jobs'
package lists — provided the reachable packages have pairwise distinct names —
or permuting its template key/value pairs, leaves `GetTemplateSignatures` and
`GetRoleDevVersion` unchanged, because packages and rendered template strings
are sorted before hashing (and with a duplicate package name the sort can tie,
making the order observable). -/
theorem claim_C4 (r r2 : Role)
    (hjobs : r2.Jobs.map Job.SHA1 = r.Jobs.map Job.SHA1)
    (hpkgperm : (r2.Jobs.flatMap Job.Packages).Perm (r.Jobs.flatMap Job.Packages))
    (hnodup : ((r.Jobs.flatMap Job.Packages).map Package.Name).Nodup)
    (he : r2.EnvironScripts = r.EnvironScripts)
    (hs : r2.Scripts = r.Scripts)
    (hp : r2.PostConfigScripts = r.PostConfigScripts)
    (hpath : r2.rolesManifestPath = r.rolesManifestPath)
    (htperm : (templatesOf r2).Perm (templatesOf r))
    (htpres : templatesPresent r2 = templatesPresent r) :
    GetTemplateSignatures r2 = GetTemplateSignatures r ∧
      ∀ fs, GetRoleDevVersion fs r2 = GetRoleDevVersion fs r := by
  have htmpl : GetTemplateSignatures r2 = GetTemplateSignatures r := by
    unfold GetTemplateSignatures
    dsimp only
    rw [insertionSort_strings_eq_of_perm (htperm.map _)]
  have hpkgsig : rolePkgSignature r2 = rolePkgSignature r := by
    rw [rolePkgSignature_shape, rolePkgSignature_shape, hjobs]
    have hsort : List.insertionSort pkgLe (r2.Jobs.flatMap Job.Packages)
        = List.insertionSort pkgLe (r.Jobs.flatMap Job.Packages) := by
      apply insertionSort_eq_of_perm pkgLe hpkgperm
      intro a ha b hb rab rba
      exact List.inj_on_of_nodup_map hnodup (hpkgperm.mem_iff.mp ha)
        (hpkgperm.mem_iff.mp hb) (strLe_antisymm rab rba)
    rw [hsort]
  have hscripts : ∀ fs, GetScriptSignatures fs r2 = GetScriptSignatures fs r := by
    intro fs
    unfold GetScriptSignatures GetScriptPaths
    rw [he, hs, hp, hpath]
  refine ⟨htmpl, ?_⟩
  intro fs
  unfold GetRoleDevVersion
  rw [roleSignature_shape, roleSignature_shape, hscripts fs, hpkgsig, htpres, htmpl]

/-- C4 witness: a role whose two distinctly-named packages and two template
pairs are permuted; signatures and dev version agree. -/
theorem claim_C4_witness :
    GetTemplateSignatures
        ⟨"r", [⟨"j", "S", [⟨"b", "shaB"⟩, ⟨"a", "shaA"⟩]⟩], [], [], [], "",
         [], some ⟨some [("k2", "v2"), ("k1", "v1")]⟩, "m.yml"⟩
      = GetTemplateSignatures
        ⟨"r", [⟨"j", "S", [⟨"a", "shaA"⟩, ⟨"b", "shaB"⟩]⟩], [], [], [], "",
         [], some ⟨some [("k1", "v1"), ("k2", "v2")]⟩, "m.yml"⟩ ∧
    GetRoleDevVersion (fun _ => none)
        ⟨"r", [⟨"j", "S", [⟨"b", "shaB"⟩, ⟨"a", "shaA"⟩]⟩], [], [], [], "",
         [], some ⟨some [("k2", "v2"), ("k1", "v1")]⟩, "m.yml"⟩
      = GetRoleDevVersion (fun _ => none)
        ⟨"r", [⟨"j", "S", [⟨"a", "shaA"⟩, ⟨"b", "shaB"⟩]⟩], [], [], [], "",
         [], some ⟨some [("k1", "v1"), ("k2", "v2")]⟩, "m.yml"⟩ := by
  have h := claim_C4
    ⟨"r", [⟨"j", "S", [⟨"a", "shaA"⟩, ⟨"b", "shaB"⟩]⟩], [], [], [], "",
     [], some ⟨some [("k1", "v1"), ("k2", "v2")]⟩, "m.yml"⟩
    ⟨"r", [⟨"j", "S", [⟨"b", "shaB"⟩, ⟨"a", "shaA"⟩]⟩], [], [], [], "",
     [], some ⟨some [("k2", "v2"), ("k1", "v1")]⟩, "m.yml"⟩
    (by decide) (by decide) (by decide) (by decide) (by decide) (by decide)
    (by decide) (by decide) (by decide)
  exact ⟨h.1, h.2 (fun _ => none)⟩

/-- C5 (confirmed): after `LoadRoleManifest` succeeds, the surviving roles are
exactly the parsed roles whose declared type is absent, "bosh" or
"bosh-task", in their original relative order (witnessed here by name and
type, the two fields the filter can observe and resolution preserves). -/
theorem claim_C5 (path : String) (parsed : RoleManifest) (releases : List Release)
    (m2 : RoleManifest) (h : LoadRoleManifest path parsed releases = .ok m2) :
    m2.Roles.map (fun r => (r.Name, r.Type'))
      = (parsed.Roles.filter (fun r => !removeCond r)).map (fun r => (r.Name, r.Type')) := by
  unfold LoadRoleManifest at h
  cases hb : buildMapped releases [] with
  | error e => rw [hb] at h; exact absurd h (by simp [Except.bind, bind])
  | ok mapped =>
    rw [hb] at h
    simp only [Except.bind, bind] at h
    cases hm : mapE (resolveRole mapped (globalTemplatesOf parsed) path)
        (sweepRoles parsed.Roles parsed.Roles.length) with
    | error e =>
      rw [hm] at h
      exact absurd h (by simp)
    | ok rs =>
      rw [hm] at h
      simp only [pure, Except.pure, Except.ok.injEq] at h
      have hroles : m2.Roles = rs := by rw [← h]
      rw [hroles]
      have hpres : ∀ x y, resolveRole mapped (globalTemplatesOf parsed) path x = .ok y →
          (y.Name, y.Type') = (x.Name, x.Type') := by
        intro x y hxy
        unfold resolveRole at hxy
        cases hr : resolveJobRefs mapped x.Name x.JobNameList with
        | error e => rw [hr] at hxy; exact absurd hxy (by simp [Except.bind, bind])
        | ok js =>
          rw [hr] at hxy
          simp only [Except.bind, bind, pure, Except.pure, Except.ok.injEq] at hxy
          rw [← hxy]
          rfl
      rw [mapE_ok_pres hpres hm, sweepRoles_eq_filter]

/-- C5 witness: a manifest with a kept default-type role and a dropped
"web_server" role loads successfully, and the loaded list is the filter. -/
theorem claim_C5_witness :
    (LoadRoleManifest ""
        ⟨[⟨"keep", [], [], [], [], "", [], none, ""⟩,
          ⟨"web", [], [], [], [], "web_server", [], none, ""⟩], none, ""⟩ []
      = .ok ⟨[⟨"keep", [], [], [], [], "", [], some ⟨some []⟩, ""⟩], some ⟨some []⟩, ""⟩) ∧
    ((⟨[⟨"keep", [], [], [], [], "", [], some ⟨some []⟩, ""⟩], some ⟨some []⟩,
        ""⟩ : RoleManifest).Roles.map (fun r => (r.Name, r.Type'))
      = ((⟨[⟨"keep", [], [], [], [], "", [], none, ""⟩,
            ⟨"web", [], [], [], [], "web_server", [], none, ""⟩], none,
          ""⟩ : RoleManifest).Roles.filter (fun r => !removeCond r)).map
          (fun r => (r.Name, r.Type'))) :=
  ⟨by decide, claim_C5 "" _ [] _ (by decide)⟩

/-- C6 (confirmed): a release list with a duplicated name makes
`LoadRoleManifest` fail with the "loaded more than once" error naming a release
that occurs at least twice in the list, whatever the parsed manifest
contains — so before any role is filtered, resolved, or template-merged. -/
theorem claim_C6 (releases : List Release)
    (h : ¬ (releases.map Release.Name).Nodup) :
    ∃ n, 2 ≤ (releases.map Release.Name).count n ∧
      ∀ (path : String) (parsed : RoleManifest),
        LoadRoleManifest path parsed releases
          = .error ("Error - release " ++ n ++ " has been loaded more than once") := by
  obtain ⟨n, _, hdup, he⟩ := buildMapped_dup releases [] (by simp) (by simpa using h)
  have hcnt : 2 ≤ (releases.map Release.Name).count n := by
    rcases hdup with hk | hc
    · rw [List.map_nil] at hk
      exact absurd hk (List.not_mem_nil n)
    · exact hc
  refine ⟨n, hcnt, ?_⟩
  intro path parsed
  unfold LoadRoleManifest
  rw [he]
  rfl

/-- C6 witness: loading any manifest against two releases both named "r1"
fails with the duplicate-release error naming the twice-loaded "r1". -/
theorem claim_C6_witness :
    ∃ n, 2 ≤ (([⟨"r1", []⟩, ⟨"r1", []⟩] : List Release).map Release.Name).count n ∧
      ∀ (path : String) (parsed : RoleManifest),
        LoadRoleManifest path parsed [⟨"r1", []⟩, ⟨"r1", []⟩]
          = .error ("Error - release " ++ n ++ " has been loaded more than once") :=
  claim_C6 [⟨"r1", []⟩, ⟨"r1", []⟩] (by decide)

/-- C7 (corrected), counterexample: a role named "myrole" references job
"nots" in the loaded release "r1", which has no such job.  The load fails, but
the error is exactly "Cannot find job nots in release": it names the missing
job and contains neither the role name nor the release name, contradicting
the claim that the unknown-job error names the release and the role. -/
theorem claim_C7_counterexample :
    LoadRoleManifest "p"
        ⟨[⟨"myrole", [], [], [], [], "", [⟨"nots", "r1"⟩], none, ""⟩], none, ""⟩
        [⟨"r1", [⟨"srv", "JS", []⟩]⟩]
      = .error "Cannot find job nots in release" ∧
    strContains "Cannot find job nots in release" "myrole" = false ∧
    strContains "Cannot find job nots in release" "r1" = false := by
  refine ⟨by decide, by decide, by decide⟩

/-- C7 (amended): when resolution first fails at a job reference whose release
name is not among the loaded releases, `LoadRoleManifest` fails with an error
naming the release, the job and the role; when it first fails at a job name
missing from its (loaded) release, it fails with `LookupJob`'s error, which
names only the missing job ("Cannot find job X in release") and not the
release or the role. -/
theorem claim_C7 (path : String) (parsed : RoleManifest) (releases : List Release)
    (mapped : List (String × Release)) (pre post : List Role) (r : Role)
    (qpre qrest : List roleJob) (ref : roleJob)
    (hb : buildMapped releases [] = .ok mapped)
    (hsweep : sweepRoles parsed.Roles parsed.Roles.length = pre ++ r :: post)
    (hpre : ∀ x ∈ pre, ∃ y, resolveRole mapped (globalTemplatesOf parsed) path x = .ok y)
    (hrefs : r.JobNameList = qpre ++ ref :: qrest)
    (hqpre : ∀ q ∈ qpre, ∃ rel j,
      getA mapped q.ReleaseName = some rel ∧ LookupJob rel q.Name = .ok j) :
    (getA mapped ref.ReleaseName = none →
      LoadRoleManifest path parsed releases
        = .error ("Error - release " ++ ref.ReleaseName ++
            " has not been loaded and is referenced by job " ++ ref.Name ++
            " in role " ++ r.Name)) ∧
    (∀ rel, getA mapped ref.ReleaseName = some rel →
      (∀ j ∈ rel.Jobs, j.Name ≠ ref.Name) →
      LoadRoleManifest path parsed releases
        = .error ("Cannot find job " ++ ref.Name ++ " in release")) := by
  have main : ∀ e, resolveJobRefs mapped r.Name (ref :: qrest) = .error e →
      LoadRoleManifest path parsed releases = .error e := by
    intro e hfail
    have hrole : resolveRole mapped (globalTemplatesOf parsed) path r = .error e := by
      unfold resolveRole
      rw [hrefs, resolveJobRefs_append_error mapped r.Name qpre (ref :: qrest) e hqpre hfail]
      rfl
    have hmap : mapE (resolveRole mapped (globalTemplatesOf parsed) path) (pre ++ r :: post)
        = .error e := by
      apply mapE_append_error _ pre _ e hpre
      simp only [mapE, hrole]
      rfl
    unfold LoadRoleManifest
    rw [hb]
    show (mapE (resolveRole mapped (globalTemplatesOf parsed) path)
        (sweepRoles parsed.Roles parsed.Roles.length)).bind _ = _
    rw [hsweep, hmap]
    rfl
  constructor
  · intro hnone
    apply main
    simp only [resolveJobRefs, hnone]
  · intro rel hsome hjobs
    apply main
    have hlookup : LookupJob rel ref.Name
        = .error ("Cannot find job " ++ ref.Name ++ " in release") := by
      unfold LookupJob
      rw [List.find?_eq_none.mpr (fun j hj => by simp [hjobs j hj])]
    simp only [resolveJobRefs, hsome, hlookup]
    rfl

/-- C7 witness: the unknown-release case at a concrete manifest, with the
fully-named error message. -/
theorem claim_C7_witness :
    LoadRoleManifest "p"
        ⟨[⟨"myrole", [], [], [], [], "", [⟨"j", "unknown"⟩], none, ""⟩], none, ""⟩
        [⟨"r1", [⟨"srv", "JS", []⟩]⟩]
      = .error ("Error - release " ++ "unknown" ++
          " has not been loaded and is referenced by job " ++ "j" ++
          " in role " ++ "myrole") :=
  (claim_C7 "p"
      ⟨[⟨"myrole", [], [], [], [], "", [⟨"j", "unknown"⟩], none, ""⟩], none, ""⟩
      [⟨"r1", [⟨"srv", "JS", []⟩]⟩] [("r1", ⟨"r1", [⟨"srv", "JS", []⟩]⟩)]
      [] [] ⟨"myrole", [], [], [], [], "", [⟨"j", "unknown"⟩], none, ""⟩
      [] [] ⟨"j", "unknown"⟩
      (by decide) (by decide) (fun x hx => absurd hx (List.not_mem_nil x)) (by decide)
      (fun q hq => absurd hq (List.not_mem_nil q))).1 (by decide)

/-- C8 (corrected), counterexample: an input that is exactly "!binary |-\n".
The occurrence is not preceded by a '!' (it is preceded by nothing), so the
claim requires it to be rewritten; the pattern requires a preceding character,
so the normalizer leaves the input unchanged. -/
theorem claim_C8_counterexample :
    fixYamlBinary ("!binary |-\n".data) = "!binary |-\n".data ∧
      "!binary |-\n".data ≠ "!!binary |-\n".data := by
  refine ⟨by decide, by decide⟩

/-- C8 (amended): scanning left to right with non-overlapping matches, the
normalizer rewrites an occurrence of "!binary |-\n" exactly when it is
immediately preceded by a character other than '!' at the current scan
position: (1) such an occurrence is rewritten to the doubled tag, with the
preceding character re-emitted, and scanning resumes after it; (2) any
position where the next character is '!' or is not followed by the tag is
copied verbatim; (3) an already-correct "!!binary |-\n" preceded by a
non-'!' character is never double-fixed.  (An occurrence at the very start of
the input has no preceding character and is not rewritten.) -/
theorem claim_C8 :
    (∀ (c : Char) (s : List Char), c ≠ '!' →
        fixYamlBinary (c :: yamlTag ++ s) = c :: yamlTagFixed ++ fixYamlBinary s) ∧
    (∀ (c : Char) (s : List Char), c = '!' ∨ yamlTag.isPrefixOf s = false →
        fixYamlBinary (c :: s) = c :: fixYamlBinary s) ∧
    (∀ (c : Char) (s : List Char), c ≠ '!' → yamlTag.isPrefixOf s = false →
        fixYamlBinary (c :: yamlTagFixed ++ s) = c :: yamlTagFixed ++ fixYamlBinary s) := by
  refine ⟨fixYamlBinary_match, fixYamlBinary_skip, ?_⟩
  intro c s hc hs
  show fixYamlBinary (c :: '!' :: '!' :: 'b' :: 'i' :: 'n' :: 'a' :: 'r' :: 'y' :: ' ' ::
      '|' :: '-' :: '\n' :: s)
    = c :: '!' :: '!' :: 'b' :: 'i' :: 'n' :: 'a' :: 'r' :: 'y' :: ' ' ::
      '|' :: '-' :: '\n' :: fixYamlBinary s
  rw [fixYamlBinary_skip c ('!' :: '!' :: 'b' :: 'i' :: 'n' :: 'a' :: 'r' :: 'y' :: ' ' :: '|' :: '-' :: '\n' :: s) (Or.inr rfl)]
  rw [fixYamlBinary_skip '!' ('!' :: 'b' :: 'i' :: 'n' :: 'a' :: 'r' :: 'y' :: ' ' :: '|' :: '-' :: '\n' :: s) (Or.inl rfl)]
  rw [fixYamlBinary_skip '!' ('b' :: 'i' :: 'n' :: 'a' :: 'r' :: 'y' :: ' ' :: '|' :: '-' :: '\n' :: s) (Or.inl rfl)]
  rw [fixYamlBinary_skip 'b' ('i' :: 'n' :: 'a' :: 'r' :: 'y' :: ' ' :: '|' :: '-' :: '\n' :: s) (Or.inr rfl)]
  rw [fixYamlBinary_skip 'i' ('n' :: 'a' :: 'r' :: 'y' :: ' ' :: '|' :: '-' :: '\n' :: s) (Or.inr rfl)]
  rw [fixYamlBinary_skip 'n' ('a' :: 'r' :: 'y' :: ' ' :: '|' :: '-' :: '\n' :: s) (Or.inr rfl)]
  rw [fixYamlBinary_skip 'a' ('r' :: 'y' :: ' ' :: '|' :: '-' :: '\n' :: s) (Or.inr rfl)]
  rw [fixYamlBinary_skip 'r' ('y' :: ' ' :: '|' :: '-' :: '\n' :: s) (Or.inr rfl)]
  rw [fixYamlBinary_skip 'y' (' ' :: '|' :: '-' :: '\n' :: s) (Or.inr rfl)]
  rw [fixYamlBinary_skip ' ' ('|' :: '-' :: '\n' :: s) (Or.inr rfl)]
  rw [fixYamlBinary_skip '|' ('-' :: '\n' :: s) (Or.inr rfl)]
  rw [fixYamlBinary_skip '-' ('\n' :: s) (Or.inr rfl)]
  rw [fixYamlBinary_skip '\n' (s) (Or.inr hs)]

/-- C8 witness: a defective tag preceded by 'x' is rewritten. -/
theorem claim_C8_witness :
    fixYamlBinary ('x' :: yamlTag ++ ['z']) = 'x' :: yamlTagFixed ++ fixYamlBinary ['z'] :=
  claim_C8.1 'x' ['z'] (by decide)

/-- C9 (corrected), counterexample: two qualifying entries whose base
filenames collide.  The claim says each qualifying entry is retained keyed by
its base filename with its own content; the second entry overwrites the
first, whose content is no longer present in the map. -/
theorem claim_C9_counterexample :
    ("license", [1]) ∉ loadLicenseFiles [("a/license", [1]), ("b/license", [2])] ∧
      keepLicense "a/license" = true ∧ basename "a/license" = "license" := by
  refine ⟨by decide, by decide, by decide⟩

/-- C9 (amended): the value stored under key `k` in `License.Files` is the
content of the *last* tar entry whose lower-cased name contains "license" or
"notice" and whose base filename is `k` (later qualifying entries overwrite
earlier ones with the same base filename); a key with no such entry is not
retained.  In particular entries whose lower-cased name contains neither
substring are never retained. -/
theorem claim_C9 (entries : List (String × List Nat)) (k : String) :
    getA (loadLicenseFiles entries) k =
      ((entries.filter (fun e => keepLicense e.1)).reverse.find?
          (fun e => basename e.1 == k)).map (fun e => e.2) := by
  unfold loadLicenseFiles
  rw [loadLicenseFiles_aux]
  cases (entries.filter (fun e => keepLicense e.1)).reverse.find?
      (fun e => basename e.1 == k) with
  | some x => rfl
  | none => rfl

/-- C10 (confirmed): signature computation does not mutate the loaded model.
In the store model, `GetRoleManifestDevPackageVersion` leaves every existing
backing array unchanged (it sorts a fresh copy of the roles slice) and
computes the same result as the pure function; `GetRoleDevVersion`'s package
loop leaves every existing backing array unchanged (it accumulates into a
fresh slice before sorting) and yields the sort of the jobs' concatenated
package lists. -/
theorem claim_C10 :
    (∀ (fs : FS) (σ : List (List Role)) (k : Nat) (extra : String),
        (∀ i < σ.length, storeGet (devPackageVersionSt fs σ k extra).2 i = storeGet σ i) ∧
        (devPackageVersionSt fs σ k extra).1
          = GetRoleManifestDevPackageVersion fs ⟨storeGet σ k, none, ""⟩ extra) ∧
    (∀ (σ : List (List Package)) (jobs : List JobSlice),
        (∀ jb ∈ jobs, jb.pkgsId < σ.length) →
        (∀ i < σ.length, storeGet (devVersionPackagesSt σ jobs).2 i = storeGet σ i) ∧
        (devVersionPackagesSt σ jobs).1
          = List.insertionSort pkgLe (jobs.flatMap (fun jb => storeGet σ jb.pkgsId))) := by
  constructor
  · intro fs σ k extra
    constructor
    · intro i hi
      show storeGet (storeSet (σ ++ [storeGet σ k]) σ.length
          (List.insertionSort roleLe (storeGet (σ ++ [storeGet σ k]) σ.length))) i = storeGet σ i
      rw [storeGet_set_ne _ _ _ _ (Nat.ne_of_gt hi),
        storeGet_append_left σ _ i hi]
    · show (hashRoleVersions fs (storeGet (storeSet (σ ++ [storeGet σ k]) σ.length
          (List.insertionSort roleLe (storeGet (σ ++ [storeGet σ k]) σ.length)))
            σ.length) (strBytes extra)).map (fun bytes => hexEncode (sha1 bytes)) = _
      rw [storeGet_set_self _ _ _ (by simp), storeGet_append_self]
      rfl
  · intro σ jobs hids
    have hne : ∀ jb ∈ jobs, jb.pkgsId ≠ σ.length :=
      fun jb hjb he => Nat.lt_irrefl _ (he ▸ hids jb hjb)
    have hσ1len : σ.length < (σ ++ [[]]).length := by simp
    have hcontent : storeGet (jobs.foldl
        (fun σa job => storeSet σa σ.length (storeGet σa σ.length ++ storeGet σa job.pkgsId))
        (σ ++ [[]])) σ.length
        = jobs.flatMap (fun jb => storeGet σ jb.pkgsId) := by
      rw [foldStorePkgs_content σ.length jobs (σ ++ [[]]) hne hσ1len,
        storeGet_append_self]
      rw [List.flatMap_def, List.flatMap_def,
        List.map_congr_left (fun jb hjb => storeGet_append_left σ [[]] jb.pkgsId (hids jb hjb))]
      rfl
    constructor
    · intro i hi
      show storeGet (storeSet _ σ.length _) i = storeGet σ i
      rw [storeGet_set_ne _ _ _ _ (Nat.ne_of_gt hi),
        foldStorePkgs_frame σ.length jobs (σ ++ [[]]) i (Nat.ne_of_lt hi),
        storeGet_append_left σ _ i hi]
    · show storeGet (storeSet _ σ.length _) σ.length = _
      rw [storeGet_set_self _ _ _ (by rw [foldStorePkgs_length]; exact hσ1len), hcontent]

/-- C10 witness: a concrete two-cell store; both computations leave cell 0
unchanged and return the pure results. -/
theorem claim_C10_witness :
    (storeGet ((devPackageVersionSt (fun _ => none)
        [[⟨"a", [], [], [], [], "", [], none, "m"⟩]] 0 "salt").2) 0
      = storeGet [[⟨"a", [], [], [], [], "", [], none, "m"⟩]] 0) ∧
    ((devPackageVersionSt (fun _ => none)
        [[⟨"a", [], [], [], [], "", [], none, "m"⟩]] 0 "salt").1
      = GetRoleManifestDevPackageVersion (fun _ => none)
          ⟨storeGet [[⟨"a", [], [], [], [], "", [], none, "m"⟩]] 0, none, ""⟩ "salt") ∧
    (storeGet (devVersionPackagesSt [[⟨"p", "sha"⟩]] [⟨"JS", 0⟩]).2 0
      = storeGet [[⟨"p", "sha"⟩]] 0) ∧
    ((devVersionPackagesSt [[⟨"p", "sha"⟩]] [⟨"JS", 0⟩]).1
      = List.insertionSort pkgLe
          (([⟨"JS", 0⟩] : List JobSlice).flatMap
            (fun jb => storeGet [[(⟨"p", "sha"⟩ : Package)]] jb.pkgsId))) :=
  ⟨(claim_C10.1 (fun _ => none) _ 0 "salt").1 0 (by decide),
   (claim_C10.1 (fun _ => none) _ 0 "salt").2,
   (claim_C10.2 _ _ (by decide)).1 0 (by decide),
   (claim_C10.2 _ _ (by decide)).2⟩

end Fissile
